import Mathlib

/-!
Verification of the property-list decoder `parse_plist_value` from
`parse_music_library.py`.

The decoder takes a parsed markup tree (tag, optional text, ordered children)
and produces a decoded value tree: text, integers, booleans, ordered
key-value records and lists.  A malformed integer text aborts the decode
with an error; unknown tags decode to a null value.
-/

/-- A node of the parsed markup tree: a tag, optional text content, and an
ordered list of child nodes.  Mirrors the `xml.etree` element shape that
`parse_plist_value` consumes (`element.tag`, `element.text`, iteration over
children). -/
inductive MarkupNode : Type where
  | node (tag : String) (text : Option String) (children : List MarkupNode) : MarkupNode

def MarkupNode.tag : MarkupNode → String
  | .node t _ _ => t

def MarkupNode.text : MarkupNode → Option String
  | .node _ x _ => x

def MarkupNode.children : MarkupNode → List MarkupNode
  | .node _ _ c => c

/-- The decoded value tree.  `str` covers Python `str` results (both the
`string` and `date` branches), `int` the `integer` branch, `bool` the
`true`/`false` branches, `dict` the ordered record (keys are `Option String`
because `key_elem.text` can be `None` in the source), `list` the `array`
branch, and `null` the fall-through `return None`. -/
inductive PValue : Type where
  | str (s : String) : PValue
  | int (n : Int) : PValue
  | bool (b : Bool) : PValue
  | dict (entries : List (Option String × PValue)) : PValue
  | list (elems : List PValue) : PValue
  | null : PValue

/-- The whitespace characters CPython `int(str)` accepts around an integer
literal: ASCII whitespace (tab, LF, VT, FF, CR, space — the ASCII parser's
whitespace test, which excludes `\x1c`–`\x1f`) plus the non-ASCII Unicode
whitespace that the decimal-to-ASCII transform maps to a space (NEL, NBSP,
Ogham space, the U+2000 through U+200A spaces, the line and paragraph separators,
narrow no-break space, medium mathematical space, ideographic space).
Matches an exhaustive scan of `int(chr(cp) + "5")` over every codepoint of
CPython 3.11 / Unicode 14. -/
def pySpaceChars : List Char :=
  ['\t', '\n', '\x0b', '\x0c', '\x0d', ' ', '\x85', '\xa0', '\u1680',
    '\u2000', '\u2001', '\u2002', '\u2003', '\u2004', '\u2005', '\u2006',
    '\u2007', '\u2008', '\u2009', '\u200A', '\u2028', '\u2029', '\u202F',
    '\u205F', '\u3000']

def isPySpace (c : Char) : Bool :=
  pySpaceChars.contains c

def isDigitC (c : Char) : Bool :=
  '0' ≤ c && c ≤ '9'

/-- Numeric value of an ASCII digit string, most significant digit first. -/
def digitsVal (cs : List Char) : Nat :=
  cs.foldl (fun a c => 10 * a + (c.toNat - 48)) 0

/-- First codepoint of every non-ASCII decimal-digit run (Unicode general
category Nd) accepted by CPython `int(str)` through its decimal-to-ASCII
transform; each run is ten consecutive codepoints carrying the values 0
through 9.  Matches an exhaustive scan of `int(chr(cp))` over every
codepoint of CPython 3.11 / Unicode 14. -/
def ndDigitStarts : List Nat :=
  [0x660, 0x6f0, 0x7c0, 0x966, 0x9e6, 0xa66, 0xae6, 0xb66, 0xbe6, 0xc66,
    0xce6, 0xd66, 0xde6, 0xe50, 0xed0, 0xf20, 0x1040, 0x1090, 0x17e0,
    0x1810, 0x1946, 0x19d0, 0x1a80, 0x1a90, 0x1b50, 0x1bb0, 0x1c40, 0x1c50,
    0xa620, 0xa8d0, 0xa900, 0xa9d0, 0xa9f0, 0xaa50, 0xabf0, 0xff10,
    0x104a0, 0x10d30, 0x11066, 0x110f0, 0x11136, 0x111d0, 0x112f0, 0x11450,
    0x114d0, 0x11650, 0x116c0, 0x11730, 0x118e0, 0x11950, 0x11c50, 0x11d50,
    0x11da0, 0x16a60, 0x16ac0, 0x16b50, 0x1d7ce, 0x1d7d8, 0x1d7e2, 0x1d7ec,
    0x1d7f6, 0x1e140, 0x1e2f0, 0x1e950, 0x1fbf0]

def ndLookup (rs : List Nat) (c : Char) : Option Nat :=
  match rs with
  | [] => none
  | r :: rest => if r ≤ c.toNat ∧ c.toNat ≤ r + 9 then some (c.toNat - r) else ndLookup rest c

/-- Decimal digit value of a character for CPython `int(str)`: ASCII digits
plus every Unicode Nd digit. -/
def decDigit? (c : Char) : Option Nat :=
  if isDigitC c then some (c.toNat - 48) else ndLookup ndDigitStarts c

/-- Continue a digit run with single underscore separators, from the value
`acc` accumulated so far: CPython accepts `1_000` but rejects leading,
trailing or doubled underscores (an underscore must sit between two
digits). -/
def pyDigitsGo (acc : Nat) : List Char → Option Nat
  | [] => some acc
  | c :: rest =>
    if c = '_' then
      match rest with
      | [] => none
      | c2 :: rest2 =>
        match decDigit? c2 with
        | some d => pyDigitsGo (10 * acc + d) rest2
        | none => none
    else
      match decDigit? c with
      | some d => pyDigitsGo (10 * acc + d) rest
      | none => none

/-- Parse a nonempty digit run (underscore separators allowed between
digits); it must start with a digit. -/
def pyDigits : List Char → Option Nat
  | [] => none
  | c :: rest =>
    match decDigit? c with
    | some d => pyDigitsGo d rest
    | none => none

/-- Strip leading and trailing Python whitespace. -/
def pyStrip (cs : List Char) : List Char :=
  ((cs.dropWhile isPySpace).reverse.dropWhile isPySpace).reverse

/-- Model of CPython `int(s)` in base 10: strip the accepted whitespace,
allow one optional ASCII sign, then require a nonempty run of Unicode
decimal digits with optional single underscores between digits.  Returns
`none` where Python raises `ValueError`. -/
def pyInt (s : String) : Option Int :=
  match pyStrip s.data with
  | [] => none
  | c :: rest =>
    if c = '+' then (pyDigits rest).map (fun n => (n : Int))
    else if c = '-' then (pyDigits rest).map (fun n => -(n : Int))
    else (pyDigits (c :: rest)).map (fun n => (n : Int))

/-- Assignment `result[key] = v` on an insertion-ordered dictionary: if the
key is present, its value is replaced in place; otherwise the pair is
appended at the end.  This is CPython `dict` semantics. -/
def dictInsert (d : List (Option String × PValue)) (k : Option String) (v : PValue) :
    List (Option String × PValue) :=
  match d with
  | [] => [(k, v)]
  | (k', v') :: rest => if k' = k then (k, v) :: rest else (k', v') :: dictInsert rest k v

/-- Lookup in the ordered dictionary. -/
def dictLookup (d : List (Option String × PValue)) (k : Option String) : Option PValue :=
  match d with
  | [] => none
  | (k', v') :: rest => if k' = k then some v' else dictLookup rest k

mutual

/-- Embedding of `parse_plist_value` from `parse_music_library.py`:
dispatch on the node's tag; `string`/`date` yield the text (empty when
absent), `integer` parses the text (0 when absent or empty, error when
unparseable), `true`/`false` yield booleans, `dict` runs the key/value
cursor walk, `array` decodes every child in order, and any other tag yields
`null`.  The only error is the `MalformedInteger` conversion failure. -/
def parse_plist_value : MarkupNode → Except String PValue
  | .node tag text _children =>
    if tag = "string" then .ok (.str (text.getD ""))
    else if tag = "integer" then
      match text with
      | none => .ok (.int 0)
      | some s =>
        if s = "" then .ok (.int 0)
        else
          match pyInt s with
          | some n => .ok (.int n)
          | none => .error "MalformedInteger"
    else if tag = "true" then .ok (.bool true)
    else if tag = "false" then .ok (.bool false)
    else if tag = "date" then .ok (.str (text.getD ""))
    else if tag = "dict" then
      match parse_plist_dict [] _children with
      | .ok r => .ok (.dict r)
      | .error e => .error e
    else if tag = "array" then
      match parse_plist_list _children with
      | .ok vs => .ok (.list vs)
      | .error e => .error e
    else .ok .null

/-- Embedding of the `array` branch `[parse_plist_value(child) for child in
element]`: decode each child in order, propagating the first error. -/
def parse_plist_list : List MarkupNode → Except String (List PValue)
  | [] => .ok []
  | c :: cs =>
    match parse_plist_value c with
    | .error e => .error e
    | .ok v =>
      match parse_plist_list cs with
      | .error e => .error e
      | .ok vs => .ok (v :: vs)

/-- Embedding of the `dict` branch's `while` loop.  The cursor position `i`
is represented by the remaining suffix of the child list; `acc` is the
`result` dictionary built so far.  At each step: if the current child's tag
is `key` and a next child exists, insert `(key.text, decode next)` and drop
two children; otherwise drop one child. -/
def parse_plist_dict (acc : List (Option String × PValue)) :
    List MarkupNode → Except String (List (Option String × PValue))
  | [] => .ok acc
  | [_] => .ok acc
  | k :: v :: rest =>
    if k.tag = "key" then
      match parse_plist_value v with
      | .error e => .error e
      | .ok pv => parse_plist_dict (dictInsert acc k.text pv) rest
    else
      parse_plist_dict acc (v :: rest)

end

/-! ### Unfolding lemmas for the decoder -/

theorem parse_string_eq (x : Option String) (cs : List MarkupNode) :
    parse_plist_value (.node "string" x cs) = .ok (.str (x.getD "")) := rfl

theorem parse_true_eq (x : Option String) (cs : List MarkupNode) :
    parse_plist_value (.node "true" x cs) = .ok (.bool true) := rfl

theorem parse_false_eq (x : Option String) (cs : List MarkupNode) :
    parse_plist_value (.node "false" x cs) = .ok (.bool false) := rfl

theorem parse_date_eq (x : Option String) (cs : List MarkupNode) :
    parse_plist_value (.node "date" x cs) = .ok (.str (x.getD "")) := rfl

theorem parse_integer_none (cs : List MarkupNode) :
    parse_plist_value (.node "integer" none cs) = .ok (.int 0) := rfl

theorem parse_integer_empty (cs : List MarkupNode) :
    parse_plist_value (.node "integer" (some "") cs) = .ok (.int 0) := rfl

theorem parse_integer_some (s : String) (cs : List MarkupNode) (hs : s ≠ "") :
    parse_plist_value (.node "integer" (some s) cs) =
      match pyInt s with
      | some n => .ok (.int n)
      | none => .error "MalformedInteger" := by
  simp [parse_plist_value, hs]

theorem parse_dict_eq (x : Option String) (cs : List MarkupNode) :
    parse_plist_value (.node "dict" x cs) =
      Except.map PValue.dict (parse_plist_dict [] cs) := by
  cases h : parse_plist_dict [] cs <;> simp [parse_plist_value, h, Except.map]

theorem parse_array_eq (x : Option String) (cs : List MarkupNode) :
    parse_plist_value (.node "array" x cs) =
      Except.map PValue.list (parse_plist_list cs) := by
  cases h : parse_plist_list cs <;> simp [parse_plist_value, h, Except.map]

theorem parse_unknown_eq (tag : String) (x : Option String) (cs : List MarkupNode)
    (h : tag ∉ ["string", "integer", "true", "false", "date", "dict", "array"]) :
    parse_plist_value (.node tag x cs) = .ok .null := by
  simp only [List.mem_cons, List.mem_singleton, not_or] at h
  obtain ⟨h1, h2, h3, h4, h5, h6, h7, -⟩ := h
  simp [parse_plist_value, h1, h2, h3, h4, h5, h6, h7]

theorem dict_walk_nil (acc : List (Option String × PValue)) :
    parse_plist_dict acc [] = .ok acc := rfl

theorem dict_walk_single (acc : List (Option String × PValue)) (k : MarkupNode) :
    parse_plist_dict acc [k] = .ok acc := rfl

theorem dict_walk_key (acc : List (Option String × PValue)) (k v : MarkupNode)
    (rest : List MarkupNode) (hk : k.tag = "key") :
    parse_plist_dict acc (k :: v :: rest) =
      (parse_plist_value v).bind
        (fun pv => parse_plist_dict (dictInsert acc k.text pv) rest) := by
  cases h : parse_plist_value v <;>
    simp [parse_plist_dict, hk, h, Except.bind]

theorem dict_walk_skip (acc : List (Option String × PValue)) (k v : MarkupNode)
    (rest : List MarkupNode) (hk : k.tag ≠ "key") :
    parse_plist_dict acc (k :: v :: rest) = parse_plist_dict acc (v :: rest) := by
  simp [parse_plist_dict, hk]

/-! ### Ordered-dictionary lemmas -/

theorem dictLookup_insert_self (d : List (Option String × PValue))
    (k : Option String) (v : PValue) :
    dictLookup (dictInsert d k v) k = some v := by
  induction d with
  | nil => simp [dictInsert, dictLookup]
  | cons p rest ih =>
    obtain ⟨k', v'⟩ := p
    by_cases h : k' = k
    · simp [dictInsert, dictLookup, h]
    · simp [dictInsert, dictLookup, h, ih]

theorem dictInsert_of_not_mem (d : List (Option String × PValue))
    (k : Option String) (v : PValue) (h : k ∉ d.map Prod.fst) :
    dictInsert d k v = d ++ [(k, v)] := by
  induction d with
  | nil => simp [dictInsert]
  | cons p rest ih =>
    obtain ⟨k', v'⟩ := p
    simp only [List.map_cons, List.mem_cons, not_or] at h
    have hne : ¬k' = k := fun hh => h.1 hh.symm
    simp [dictInsert, hne, ih h.2]

theorem dictInsert_keys_of_mem (d : List (Option String × PValue))
    (k : Option String) (v : PValue) (h : k ∈ d.map Prod.fst) :
    (dictInsert d k v).map Prod.fst = d.map Prod.fst := by
  induction d with
  | nil => simp at h
  | cons p rest ih =>
    obtain ⟨k', v'⟩ := p
    by_cases hk : k' = k
    · simp [dictInsert, hk]
    · simp only [List.map_cons, List.mem_cons] at h
      rcases h with h | h
      · exact absurd h.symm hk
      · simp [dictInsert, hk, ih h]

/-! ### Well-formed key/value pair sequences -/

/-- The children of a `dict` node form well-formed key/value sibling pairs:
an even-length alternation where every odd position holds a `key`-tagged
node. -/
def isPairs : List MarkupNode → Bool
  | [] => true
  | [_] => false
  | k :: _ :: rest => (k.tag = "key" : Bool) && isPairs rest

/-- Extract the (key text, value node) pairs from a pair-shaped child list. -/
def pairsOf : List MarkupNode → List (Option String × MarkupNode)
  | [] => []
  | [_] => []
  | k :: v :: rest => (k.text, v) :: pairsOf rest

/-- The record built by decoding each pair's value in order and inserting it
under the pair's key. -/
def foldPairs (acc : List (Option String × PValue)) :
    List (Option String × MarkupNode) → Except String (List (Option String × PValue))
  | [] => .ok acc
  | (k, v) :: rest =>
    match parse_plist_value v with
    | .error e => .error e
    | .ok pv => foldPairs (dictInsert acc k pv) rest

/-- On pair-shaped children the cursor walk is exactly the pairwise fold. -/
theorem dict_walk_pairs (cs : List MarkupNode) (h : isPairs cs = true) :
    ∀ acc, parse_plist_dict acc cs = foldPairs acc (pairsOf cs) := by
  match cs with
  | [] => intro acc; rfl
  | [_] => simp [isPairs] at h
  | k :: v :: rest =>
    intro acc
    simp only [isPairs, Bool.and_eq_true, decide_eq_true_eq] at h
    have ih := dict_walk_pairs rest h.2
    cases hv : parse_plist_value v with
    | error e => simp [parse_plist_dict, pairsOf, foldPairs, h.1, hv]
    | ok pv => simp [parse_plist_dict, pairsOf, foldPairs, h.1, hv, ih]

/-- When the keys are distinct and fresh for the accumulator, the pairwise
fold appends the decoded pairs in source order. -/
theorem foldPairs_of_nodup (ps : List (Option String × MarkupNode)) :
    ∀ (acc : List (Option String × PValue)) (vs : List PValue),
      parse_plist_list (ps.map Prod.snd) = .ok vs →
      (ps.map Prod.fst).Nodup →
      (∀ k ∈ ps.map Prod.fst, k ∉ acc.map Prod.fst) →
      foldPairs acc ps = .ok (acc ++ (ps.map Prod.fst).zip vs) := by
  induction ps with
  | nil =>
    intro acc vs hvs _ _
    simp only [List.map_nil, parse_plist_list] at hvs
    cases hvs
    simp [foldPairs]
  | cons p rest ih =>
    intro acc vs hvs hnodup hfresh
    obtain ⟨k, v⟩ := p
    simp only [List.map_cons] at hvs
    rw [parse_plist_list] at hvs
    cases hv : parse_plist_value v with
    | error e => rw [hv] at hvs; cases hvs
    | ok pv =>
      rw [hv] at hvs
      cases hrest : parse_plist_list (rest.map Prod.snd) with
      | error e => rw [hrest] at hvs; cases hvs
      | ok vs' =>
        rw [hrest] at hvs
        cases hvs
        simp only [List.map_cons, List.nodup_cons] at hnodup
        have hkfresh : k ∉ acc.map Prod.fst := by
          exact hfresh k (by simp)
        have hins : dictInsert acc k pv = acc ++ [(k, pv)] :=
          dictInsert_of_not_mem acc k pv hkfresh
        have hrestfresh : ∀ k' ∈ rest.map Prod.fst,
            k' ∉ (acc ++ [(k, pv)]).map Prod.fst := by
          intro k' hk'
          simp only [List.map_append, List.mem_append, List.map_cons, List.map_nil,
            List.mem_singleton, not_or]
          refine ⟨hfresh k' (by simp [hk']), ?_⟩
          intro hcon
          exact hnodup.1 (hcon ▸ hk')
        have := ih (acc ++ [(k, pv)]) vs' hrest hnodup.2 hrestfresh
        simp only [foldPairs, hv, hins, this]
        simp [List.zip]

/-! ### Pointwise characterisation of the array decode -/

theorem parse_plist_list_forall₂ (cs : List MarkupNode) :
    ∀ vs, parse_plist_list cs = .ok vs →
      List.Forall₂ (fun c v => parse_plist_value c = .ok v) cs vs := by
  induction cs with
  | nil =>
    intro vs h
    rw [parse_plist_list] at h
    cases h
    exact .nil
  | cons c cs ih =>
    intro vs h
    rw [parse_plist_list] at h
    cases hc : parse_plist_value c with
    | error e => rw [hc] at h; cases h
    | ok v =>
      rw [hc] at h
      cases hcs : parse_plist_list cs with
      | error e => rw [hcs] at h; cases h
      | ok vs' =>
        rw [hcs] at h
        cases h
        exact .cons hc (ih vs' hcs)

/-! ### Which trees decode without an error -/

/-- The text of an `integer` node decodes without an error: absent, empty, or
parseable. -/
def intTextOk : Option String → Bool
  | none => true
  | some s => (s = "" : Bool) || (pyInt s).isSome

mutual

/-- Every node in the tree would decode without an error: every
`integer`-tagged node has absent, empty or parseable text. -/
def nodeOk : MarkupNode → Bool
  | .node tag text children =>
    (if tag = "integer" then intTextOk text else true) && childrenOk children

def childrenOk : List MarkupNode → Bool
  | [] => true
  | c :: cs => nodeOk c && childrenOk cs

end

theorem except_map_isOk {α β ε : Type} (f : α → β) (x : Except ε α) :
    (Except.map f x).isOk = x.isOk := by
  cases x <;> rfl

mutual

theorem ok_value : ∀ (n : MarkupNode), nodeOk n = true → (parse_plist_value n).isOk = true
  | .node tag text children => by
    intro h
    simp only [nodeOk, Bool.and_eq_true] at h
    obtain ⟨h1, h2⟩ := h
    by_cases hs : tag = "string"
    · subst hs; rfl
    by_cases hi : tag = "integer"
    · subst hi
      rw [if_pos rfl] at h1
      cases text with
      | none => rfl
      | some s =>
        by_cases hse : s = ""
        · subst hse; rfl
        · rw [intTextOk] at h1
          simp only [hse, decide_False, Bool.false_or] at h1
          obtain ⟨n, hn⟩ := Option.isSome_iff_exists.mp h1
          rw [parse_integer_some s children hse, hn]
          rfl
    by_cases ht : tag = "true"
    · subst ht; rfl
    by_cases hf : tag = "false"
    · subst hf; rfl
    by_cases hd : tag = "date"
    · subst hd; rfl
    by_cases hdi : tag = "dict"
    · subst hdi
      rw [parse_dict_eq, except_map_isOk]
      exact ok_dict [] children h2
    by_cases ha : tag = "array"
    · subst ha
      rw [parse_array_eq, except_map_isOk]
      exact ok_list children h2
    · rw [parse_unknown_eq tag text children (by simp [hs, hi, ht, hf, hd, hdi, ha])]
      rfl

theorem ok_list : ∀ (cs : List MarkupNode), childrenOk cs = true →
    (parse_plist_list cs).isOk = true
  | [] => by intro _; rfl
  | c :: cs => by
    intro h
    simp only [childrenOk, Bool.and_eq_true] at h
    have hc := ok_value c h.1
    have hcs := ok_list cs h.2
    rw [parse_plist_list]
    cases hcv : parse_plist_value c with
    | error e => rw [hcv] at hc; cases hc
    | ok v =>
      cases hcsv : parse_plist_list cs with
      | error e => rw [hcsv] at hcs; cases hcs
      | ok vs => rfl

theorem ok_dict : ∀ (acc : List (Option String × PValue)) (cs : List MarkupNode),
    childrenOk cs = true → (parse_plist_dict acc cs).isOk = true
  | _, [] => by intro _; rfl
  | _, [_] => by intro _; rfl
  | acc, k :: v :: rest => by
    intro h
    simp only [childrenOk, Bool.and_eq_true] at h
    have hv : nodeOk v = true := h.2.1
    have hrest : childrenOk rest = true := h.2.2
    by_cases hkt : k.tag = "key"
    · rw [dict_walk_key acc k v rest hkt]
      have hvok := ok_value v hv
      cases hvv : parse_plist_value v with
      | error e => rw [hvv] at hvok; cases hvok
      | ok pv =>
        simp only [Except.bind]
        exact ok_dict (dictInsert acc k.text pv) rest hrest
    · rw [dict_walk_skip acc k v rest hkt]
      exact ok_dict acc (v :: rest) (by simp [childrenOk, hv, hrest])

end

theorem except_map_error {α β ε : Type} (f : α → β) (x : Except ε α) (e : ε)
    (h : Except.map f x = .error e) : x = .error e := by
  cases x with
  | error e' => cases h; rfl
  | ok a => cases h

mutual

theorem err_value : ∀ (n : MarkupNode) (e : String),
    parse_plist_value n = .error e → e = "MalformedInteger"
  | .node tag text children => by
    intro e h
    by_cases hs : tag = "string"
    · subst hs; cases h
    by_cases hi : tag = "integer"
    · subst hi
      cases text with
      | none => cases h
      | some s =>
        by_cases hse : s = ""
        · subst hse; cases h
        · rw [parse_integer_some s children hse] at h
          cases hp : pyInt s with
          | some n => rw [hp] at h; cases h
          | none => rw [hp] at h; cases h; rfl
    by_cases ht : tag = "true"
    · subst ht; cases h
    by_cases hf : tag = "false"
    · subst hf; cases h
    by_cases hd : tag = "date"
    · subst hd; cases h
    by_cases hdi : tag = "dict"
    · subst hdi
      rw [parse_dict_eq] at h
      exact err_dict [] children e (except_map_error _ _ _ h)
    by_cases ha : tag = "array"
    · subst ha
      rw [parse_array_eq] at h
      exact err_list children e (except_map_error _ _ _ h)
    · rw [parse_unknown_eq tag text children (by simp [hs, hi, ht, hf, hd, hdi, ha])] at h
      cases h

theorem err_list : ∀ (cs : List MarkupNode) (e : String),
    parse_plist_list cs = .error e → e = "MalformedInteger"
  | [], e => by intro h; cases h
  | c :: cs, e => by
    intro h
    rw [parse_plist_list] at h
    cases hc : parse_plist_value c with
    | error e' =>
      rw [hc] at h
      cases h
      exact err_value c e hc
    | ok v =>
      rw [hc] at h
      cases hcs : parse_plist_list cs with
      | error e' =>
        rw [hcs] at h
        cases h
        exact err_list cs e hcs
      | ok vs => rw [hcs] at h; cases h

theorem err_dict : ∀ (acc : List (Option String × PValue)) (cs : List MarkupNode) (e : String),
    parse_plist_dict acc cs = .error e → e = "MalformedInteger"
  | _, [], e => by intro h; cases h
  | _, [_], e => by intro h; cases h
  | acc, k :: v :: rest, e => by
    intro h
    by_cases hkt : k.tag = "key"
    · rw [dict_walk_key acc k v rest hkt] at h
      cases hv : parse_plist_value v with
      | error e' =>
        rw [hv] at h
        simp only [Except.bind] at h
        cases h
        exact err_value v e hv
      | ok pv =>
        rw [hv] at h
        simp only [Except.bind] at h
        exact err_dict (dictInsert acc k.text pv) rest e h
    · rw [dict_walk_skip acc k v rest hkt] at h
      exact err_dict acc (v :: rest) e h

end

/-! ### Printing integers back to decimal text -/

def digitChar : Nat → Char
  | 0 => '0'
  | 1 => '1'
  | 2 => '2'
  | 3 => '3'
  | 4 => '4'
  | 5 => '5'
  | 6 => '6'
  | 7 => '7'
  | 8 => '8'
  | 9 => '9'
  | _ => '?'

/-- Decimal digits of `n`, most significant first, in front of `acc`. -/
def natDigitsAux (n : Nat) (acc : List Char) : List Char :=
  if n < 10 then digitChar n :: acc
  else natDigitsAux (n / 10) (digitChar (n % 10) :: acc)
termination_by n
decreasing_by
  exact Nat.div_lt_self (by omega) (by omega)

def natText (m : Nat) : String :=
  String.mk (natDigitsAux m [])

/-- Decimal rendering of an integer, with a leading minus sign when
negative. -/
def intText (n : Int) : String :=
  if n < 0 then "-" ++ natText n.natAbs else natText n.natAbs

theorem digitChar_isDigit (d : Nat) (h : d < 10) : isDigitC (digitChar d) = true := by
  interval_cases d <;> rfl

theorem digitChar_val (d : Nat) (h : d < 10) : (digitChar d).toNat - 48 = d := by
  interval_cases d <;> rfl

theorem natDigitsAux_append (n : Nat) (acc : List Char) :
    natDigitsAux n acc = natDigitsAux n [] ++ acc := by
  by_cases h : n < 10
  · conv_lhs => rw [natDigitsAux]
    conv_rhs => rw [natDigitsAux]
    simp [h]
  · conv_lhs => rw [natDigitsAux]
    conv_rhs => rw [natDigitsAux]
    rw [if_neg h, if_neg h,
      natDigitsAux_append (n / 10) (digitChar (n % 10) :: acc),
      natDigitsAux_append (n / 10) [digitChar (n % 10)]]
    simp
termination_by n
decreasing_by
  all_goals exact Nat.div_lt_self (by omega) (by omega)

theorem natDigitsAux_ne_nil (n : Nat) (acc : List Char) : natDigitsAux n acc ≠ [] := by
  by_cases h : n < 10
  · rw [natDigitsAux, if_pos h]
    simp
  · rw [natDigitsAux, if_neg h]
    exact natDigitsAux_ne_nil (n / 10) (digitChar (n % 10) :: acc)
termination_by n
decreasing_by
  exact Nat.div_lt_self (by omega) (by omega)

theorem natDigitsAux_all_digits (n : Nat) (acc : List Char)
    (hacc : acc.all isDigitC = true) : (natDigitsAux n acc).all isDigitC = true := by
  by_cases h : n < 10
  · rw [natDigitsAux, if_pos h]
    simp only [List.all_cons, Bool.and_eq_true]
    exact ⟨digitChar_isDigit n h, hacc⟩
  · rw [natDigitsAux, if_neg h]
    exact natDigitsAux_all_digits (n / 10) _ (by
      simp only [List.all_cons, Bool.and_eq_true]
      exact ⟨digitChar_isDigit (n % 10) (Nat.mod_lt _ (by omega)), hacc⟩)
termination_by n
decreasing_by
  exact Nat.div_lt_self (by omega) (by omega)

theorem digitsVal_append_singleton (xs : List Char) (c : Char) :
    digitsVal (xs ++ [c]) = 10 * digitsVal xs + (c.toNat - 48) := by
  simp [digitsVal, List.foldl_append]

theorem natDigitsAux_val (n : Nat) : digitsVal (natDigitsAux n []) = n := by
  by_cases h : n < 10
  · rw [natDigitsAux, if_pos h]
    simp [digitsVal, digitChar_val n h]
  · rw [natDigitsAux, if_neg h, natDigitsAux_append]
    rw [digitsVal_append_singleton, natDigitsAux_val (n / 10),
      digitChar_val (n % 10) (Nat.mod_lt _ (by omega))]
    omega
termination_by n
decreasing_by
  exact Nat.div_lt_self (by omega) (by omega)

theorem decDigit?_of_isDigitC (c : Char) (h : isDigitC c = true) :
    decDigit? c = some (c.toNat - 48) := by
  rw [decDigit?, if_pos h]

theorem isDigitC_ne_underscore (c : Char) (h : isDigitC c = true) : ¬(c = '_') := by
  intro hc
  subst hc
  exact absurd h (by decide)

theorem pyDigitsGo_all_digits (ds : List Char) :
    ∀ acc : Nat, ds.all isDigitC = true →
      pyDigitsGo acc ds = some (ds.foldl (fun a c => 10 * a + (c.toNat - 48)) acc) := by
  induction ds with
  | nil => intro acc _; rfl
  | cons c rest ih =>
    intro acc h
    simp only [List.all_cons, Bool.and_eq_true] at h
    rw [pyDigitsGo.eq_def]
    simp only [if_neg (isDigitC_ne_underscore c h.1), decDigit?_of_isDigitC c h.1]
    rw [ih _ h.2, List.foldl_cons]

theorem pyDigits_natDigitsAux (n : Nat) : pyDigits (natDigitsAux n []) = some n := by
  have hall : (natDigitsAux n []).all isDigitC = true := natDigitsAux_all_digits n [] rfl
  have hval : digitsVal (natDigitsAux n []) = n := natDigitsAux_val n
  cases hcons : natDigitsAux n [] with
  | nil => exact absurd hcons (natDigitsAux_ne_nil n [])
  | cons c rest =>
    rw [hcons] at hall hval
    simp only [List.all_cons, Bool.and_eq_true] at hall
    rw [pyDigits]
    simp only [decDigit?_of_isDigitC c hall.1]
    rw [pyDigitsGo_all_digits rest _ hall.2, ← hval, digitsVal, List.foldl_cons]
    simp

theorem pySpace_not_digit : ∀ x ∈ pySpaceChars, isDigitC x = false := by decide

theorem isDigitC_not_space (c : Char) (h : isDigitC c = true) : isPySpace c = false := by
  rw [isPySpace]
  by_contra hc
  rw [Bool.not_eq_false, List.contains_eq_any_beq, List.any_eq_true] at hc
  obtain ⟨x, hx, hbeq⟩ := hc
  rw [beq_iff_eq] at hbeq
  subst hbeq
  rw [pySpace_not_digit _ hx] at h
  exact Bool.noConfusion h

theorem isDigitC_ne_plus (c : Char) (h : isDigitC c = true) : ¬(c = '+') := by
  intro hc
  subst hc
  exact absurd h (by decide)

theorem isDigitC_ne_minus (c : Char) (h : isDigitC c = true) : ¬(c = '-') := by
  intro hc
  subst hc
  exact absurd h (by decide)

theorem dropWhile_of_all_not (p : Char → Bool) (cs : List Char)
    (h : ∀ c ∈ cs, p c = false) : cs.dropWhile p = cs := by
  cases cs with
  | nil => rfl
  | cons c rest => simp [List.dropWhile_cons, h c (by simp)]

theorem pyStrip_of_all_not (cs : List Char) (h : ∀ c ∈ cs, isPySpace c = false) :
    pyStrip cs = cs := by
  rw [pyStrip, dropWhile_of_all_not _ cs h,
    dropWhile_of_all_not _ cs.reverse (fun c hc => h c (List.mem_reverse.mp hc)),
    List.reverse_reverse]

theorem pyInt_natText (m : Nat) : pyInt (natText m) = some (m : Int) := by
  have hall : ∀ c ∈ natDigitsAux m [], isDigitC c = true :=
    List.all_eq_true.mp (natDigitsAux_all_digits m [] rfl)
  have hnospace : ∀ c ∈ natDigitsAux m [], isPySpace c = false :=
    fun c hc => isDigitC_not_space c (hall c hc)
  have hdata : (natText m).data = natDigitsAux m [] := rfl
  rw [pyInt, hdata, pyStrip_of_all_not _ hnospace]
  cases hcons : natDigitsAux m [] with
  | nil => exact absurd hcons (natDigitsAux_ne_nil m [])
  | cons c rest =>
    have hc : isDigitC c = true := hall c (by rw [hcons]; simp)
    simp only [if_neg (isDigitC_ne_plus c hc), if_neg (isDigitC_ne_minus c hc)]
    rw [← hcons, pyDigits_natDigitsAux]
    rfl

theorem pyInt_cons (s : String) (c : Char) (rest : List Char)
    (h : pyStrip s.data = c :: rest) :
    pyInt s =
      if c = '+' then (pyDigits rest).map (fun n => (n : Int))
      else if c = '-' then (pyDigits rest).map (fun n => -(n : Int))
      else (pyDigits (c :: rest)).map (fun n => (n : Int)) := by
  rw [pyInt, h]

/-- The integer model agrees with CPython `int()` on its distinctive
inputs (each line checked against a CPython 3.11 interpreter): underscore
separators, Unicode digits (Arabic-Indic, Extended Arabic-Indic,
fullwidth), Unicode whitespace, and the rejected shapes — doubled, leading
or trailing underscores, an underscore right after the sign, whitespace
between sign and digits, ASCII control characters outside the accepted
whitespace, doubled signs, and sign- or underscore-only strings. -/
theorem pyInt_matches_python :
    pyInt "1_2" = some 12 ∧ pyInt "+1_0" = some 10 ∧ pyInt "1_2_3" = some 123 ∧
    pyInt "٤٢" = some 42 ∧ pyInt "۴۲" = some 42 ∧ pyInt "４２" = some 42 ∧
    pyInt "٤_٢" = some 42 ∧ pyInt "+٤٢" = some 42 ∧
    pyInt "\xa042" = some 42 ∧ pyInt "\u300012\u2007" = some 12 ∧
    pyInt " +12 " = some 12 ∧ pyInt "007" = some 7 ∧ pyInt "-0" = some 0 ∧
    pyInt "1__2" = none ∧ pyInt "_1" = none ∧ pyInt "1_" = none ∧
    pyInt "+_1" = none ∧ pyInt "+ 1" = none ∧ pyInt "\x1c42" = none ∧
    pyInt "--1" = none ∧ pyInt "+" = none ∧ pyInt "_" = none := by
  decide

theorem pyInt_intText (n : Int) : pyInt (intText n) = some n := by
  by_cases h : n < 0
  · rw [intText, if_pos h]
    have hall : ∀ c ∈ natDigitsAux n.natAbs [], isDigitC c = true :=
      List.all_eq_true.mp (natDigitsAux_all_digits n.natAbs [] rfl)
    have hdata : ("-" ++ natText n.natAbs).data = '-' :: natDigitsAux n.natAbs [] := by
      rw [String.data_append]
      rfl
    have hnospace : ∀ c ∈ '-' :: natDigitsAux n.natAbs [], isPySpace c = false := by
      intro c hc
      rcases List.mem_cons.mp hc with hc | hc
      · subst hc; rfl
      · exact isDigitC_not_space c (hall c hc)
    have hstrip : pyStrip ("-" ++ natText n.natAbs).data = '-' :: natDigitsAux n.natAbs [] := by
      rw [hdata]
      exact pyStrip_of_all_not _ hnospace
    rw [pyInt_cons _ _ _ hstrip]
    rw [if_neg (by decide : ¬('-' = '+')), if_pos rfl, pyDigits_natDigitsAux]
    have habs : -((n.natAbs : Nat) : Int) = n := by omega
    show some (-((n.natAbs : Nat) : Int)) = some n
    rw [habs]
  · rw [intText, if_neg h, pyInt_natText]
    have habs : ((n.natAbs : Nat) : Int) = n := by omega
    rw [habs]

theorem intText_ne_empty (n : Int) : intText n ≠ "" := by
  intro hc
  have hdata : (intText n).data = [] := by rw [hc]
  by_cases h : n < 0
  · rw [intText, if_pos h, String.data_append] at hdata
    simp at hdata
  · rw [intText, if_neg h] at hdata
    exact natDigitsAux_ne_nil n.natAbs [] hdata

theorem parse_integer_intText (n : Int) (cs : List MarkupNode) :
    parse_plist_value (.node "integer" (some (intText n)) cs) = .ok (.int n) := by
  rw [parse_integer_some _ _ (intText_ne_empty n), pyInt_intText]

/-! ### A faithful inverse encoder -/

mutual

/-- Modelled from the spec: the repository has no encoder; §8 postulates "a
faithful inverse encoder" from DecodedValue back to markup.  Each variant is
sent to the markup shape whose decode row produces it: text to a `string`
node, integers to an `integer` node with decimal text, booleans to
`true`/`false` nodes, records to a `dict` node alternating `key` nodes with
encoded values, lists to an `array` node, and the null value to an
unrecognised tag. -/
def encodeValue : PValue → MarkupNode
  | .str s => .node "string" (some s) []
  | .int n => .node "integer" (some (intText n)) []
  | .bool true => .node "true" none []
  | .bool false => .node "false" none []
  | .dict entries => .node "dict" none (encodePairs entries)
  | .list vs => .node "array" none (encodeList vs)
  | .null => .node "unrecognised" none []

def encodeList : List PValue → List MarkupNode
  | [] => []
  | v :: vs => encodeValue v :: encodeList vs

def encodePairs : List (Option String × PValue) → List MarkupNode
  | [] => []
  | (k, v) :: rest => .node "key" k [] :: encodeValue v :: encodePairs rest

end

/-- Distinct keys, CPython-style: no key occurs twice. -/
def keysNodup : List (Option String) → Bool
  | [] => true
  | k :: ks => !(ks.contains k) && keysNodup ks

mutual

/-- A DecodedValue is well formed when every record in it has distinct keys
(the invariant every value returned by the decoder satisfies). -/
def wfValue : PValue → Bool
  | .str _ => true
  | .int _ => true
  | .bool _ => true
  | .dict entries => keysNodup (entries.map Prod.fst) && wfPairs entries
  | .list vs => wfList vs
  | .null => true

def wfList : List PValue → Bool
  | [] => true
  | v :: vs => wfValue v && wfList vs

def wfPairs : List (Option String × PValue) → Bool
  | [] => true
  | (_, v) :: rest => wfValue v && wfPairs rest

end

theorem keysNodup_not_contains (k : Option String) (ks : List (Option String))
    (h : keysNodup (k :: ks) = true) : ∀ k' ∈ ks, k' ≠ k := by
  intro k' hk' hc
  rw [keysNodup] at h
  simp only [Bool.and_eq_true, Bool.not_eq_true'] at h
  subst hc
  rw [List.contains_eq_any_beq] at h
  have := h.1
  rw [List.any_eq_false] at this
  have := this k' hk'
  simp at this

mutual

theorem roundtrip_value : ∀ (v : PValue), wfValue v = true →
    parse_plist_value (encodeValue v) = .ok v
  | .str s => by
    intro _
    rw [encodeValue, parse_string_eq]
    rfl
  | .int n => by
    intro _
    rw [encodeValue, parse_integer_intText]
  | .bool true => by intro _; rfl
  | .bool false => by intro _; rfl
  | .dict entries => by
    intro h
    rw [wfValue] at h
    simp only [Bool.and_eq_true] at h
    rw [encodeValue, parse_dict_eq,
      roundtrip_pairs entries [] h.2 h.1 (by simp)]
    rfl
  | .list vs => by
    intro h
    rw [wfValue] at h
    rw [encodeValue, parse_array_eq, roundtrip_list vs h]
    rfl
  | .null => by intro _; rfl

theorem roundtrip_list : ∀ (vs : List PValue), wfList vs = true →
    parse_plist_list (encodeList vs) = .ok vs
  | [] => by intro _; rfl
  | v :: vs => by
    intro h
    rw [wfList] at h
    simp only [Bool.and_eq_true] at h
    rw [encodeList, parse_plist_list, roundtrip_value v h.1, roundtrip_list vs h.2]

theorem roundtrip_pairs : ∀ (entries : List (Option String × PValue))
    (acc : List (Option String × PValue)),
    wfPairs entries = true →
    keysNodup (entries.map Prod.fst) = true →
    (∀ k ∈ entries.map Prod.fst, k ∉ acc.map Prod.fst) →
    parse_plist_dict acc (encodePairs entries) = .ok (acc ++ entries)
  | [], acc => by
    intro _ _ _
    rw [encodePairs, dict_walk_nil, List.append_nil]
  | (k, v) :: rest, acc => by
    intro hwf hnd hfresh
    rw [wfPairs] at hwf
    simp only [Bool.and_eq_true] at hwf
    rw [encodePairs,
      dict_walk_key acc (.node "key" k []) (encodeValue v) (encodePairs rest) rfl,
      roundtrip_value v hwf.1]
    show parse_plist_dict (dictInsert acc k v) (encodePairs rest) = _
    have hkfresh : k ∉ acc.map Prod.fst := hfresh k (by simp)
    rw [dictInsert_of_not_mem acc k v hkfresh]
    have hnd' : keysNodup (rest.map Prod.fst) = true := by
      rw [List.map_cons, keysNodup] at hnd
      simp only [Bool.and_eq_true] at hnd
      exact hnd.2
    have hne : ∀ k' ∈ rest.map Prod.fst, k' ≠ k :=
      keysNodup_not_contains k (rest.map Prod.fst) (by rw [List.map_cons] at hnd; exact hnd)
    have hfresh' : ∀ k' ∈ rest.map Prod.fst, k' ∉ (acc ++ [(k, v)]).map Prod.fst := by
      intro k' hk'
      simp only [List.map_append, List.mem_append, List.map_cons, List.map_nil,
        List.mem_singleton, not_or]
      exact ⟨hfresh k' (by simp [hk']), hne k' hk'⟩
    rw [roundtrip_pairs rest (acc ++ [(k, v)]) hwf.2 hnd' hfresh']
    simp

end

/-! ### Claims -/

/-- Claim C1: decoding a `dict`-tagged node is a single left-to-right cursor
walk over the children, starting from the empty record: with two or more
children left, a `key`-tagged current child pairs with the next child (the
key's text becomes the field name, the decoded next child the value, the
entry is inserted overwriting any earlier entry with the same key, and the
cursor advances by two), any other current child is skipped (advance by
one), and a lone trailing child ends the walk. -/
theorem claim_C1 :
    (∀ (x : Option String) (cs : List MarkupNode),
      parse_plist_value (.node "dict" x cs) =
        Except.map PValue.dict (parse_plist_dict [] cs)) ∧
    (∀ acc, parse_plist_dict acc [] = .ok acc) ∧
    (∀ acc (k : MarkupNode), parse_plist_dict acc [k] = .ok acc) ∧
    (∀ acc (k v : MarkupNode) (rest : List MarkupNode), k.tag = "key" →
      parse_plist_dict acc (k :: v :: rest) =
        (parse_plist_value v).bind
          (fun pv => parse_plist_dict (dictInsert acc k.text pv) rest)) ∧
    (∀ acc (k v : MarkupNode) (rest : List MarkupNode), k.tag ≠ "key" →
      parse_plist_dict acc (k :: v :: rest) = parse_plist_dict acc (v :: rest)) ∧
    (∀ (d : List (Option String × PValue)) (k : Option String) (v : PValue),
      dictLookup (dictInsert d k v) k = some v) :=
  ⟨parse_dict_eq, dict_walk_nil, dict_walk_single, dict_walk_key, dict_walk_skip,
    dictLookup_insert_self⟩

theorem claim_C1_witness :
    parse_plist_dict [] [.node "key" (some "A") [], .node "true" none []] =
      (parse_plist_value (.node "true" none [])).bind
        (fun pv => parse_plist_dict (dictInsert [] (some "A") pv) []) :=
  claim_C1.2.2.2.1 [] (.node "key" (some "A") []) (.node "true" none []) [] rfl

/-- Claim C2 counterexample: a `dict` whose children form N = 2 well-formed
key/value pairs with a repeated key decodes to a record with 1 entry, not
exactly N = 2 entries. -/
theorem claim_C2_counterexample :
    isPairs [.node "key" (some "A") [], .node "integer" (some "1") [],
      .node "key" (some "A") [], .node "integer" (some "2") []] = true ∧
    (pairsOf [.node "key" (some "A") [], .node "integer" (some "1") [],
      .node "key" (some "A") [], .node "integer" (some "2") []]).length = 2 ∧
    parse_plist_value (.node "dict" none
      [.node "key" (some "A") [], .node "integer" (some "1") [],
        .node "key" (some "A") [], .node "integer" (some "2") []]) =
      .ok (.dict [(some "A", .int 2)]) ∧
    [((some "A" : Option String), PValue.int 2)].length ≠ 2 :=
  ⟨rfl, rfl, rfl, by decide⟩

/-- Claim C2 (amended): for a `dict` node whose children form N well-formed
key/value sibling pairs, when the N keys are pairwise distinct and the
values decode, the record has exactly N entries, in source order, entry i
pairing key i with the decode of value i; when a key repeats, the later
pair overwrites the earlier entry's value in place (so the entry count is
the number of distinct keys, not N). -/
theorem claim_C2 :
    (∀ (cs : List MarkupNode) (vs : List PValue),
      isPairs cs = true →
      parse_plist_list ((pairsOf cs).map Prod.snd) = .ok vs →
      ((pairsOf cs).map Prod.fst).Nodup →
      parse_plist_value (.node "dict" none cs) =
        .ok (.dict (((pairsOf cs).map Prod.fst).zip vs)) ∧
      (((pairsOf cs).map Prod.fst).zip vs).length = (pairsOf cs).length) ∧
    (∀ (d : List (Option String × PValue)) (k : Option String) (v : PValue),
      k ∈ d.map Prod.fst →
      (dictInsert d k v).map Prod.fst = d.map Prod.fst ∧
      dictLookup (dictInsert d k v) k = some v) := by
  constructor
  · intro cs vs hpairs hvals hnodup
    have hlen : vs.length = ((pairsOf cs).map Prod.snd).length :=
      (parse_plist_list_forall₂ _ vs hvals).length_eq.symm
    constructor
    · rw [parse_dict_eq, dict_walk_pairs cs hpairs [],
        foldPairs_of_nodup (pairsOf cs) [] vs hvals hnodup (by simp)]
      rfl
    · rw [List.length_zip, hlen]
      simp
  · intro d k v h
    exact ⟨dictInsert_keys_of_mem d k v h, dictLookup_insert_self d k v⟩

theorem claim_C2_witness :
    parse_plist_value (.node "dict" none
      [.node "key" (some "A") [], .node "string" (some "x") []]) =
      .ok (.dict [(some "A", .str "x")]) ∧
    ([(some "A" : Option String)].zip [PValue.str "x"]).length = 1 := by
  have h := claim_C2.1 [.node "key" (some "A") [], .node "string" (some "x") []]
    [.str "x"] rfl rfl (by decide)
  exact h

/-- Claim C3: decoding an `integer`-tagged node yields the parsed whole
number when the text parses, yields 0 when the text is absent or empty, and
fails with the MalformedInteger conversion error when the text is non-empty
but unparseable. -/
theorem claim_C3 :
    (∀ (s : String) (n : Int) (cs : List MarkupNode), pyInt s = some n →
      parse_plist_value (.node "integer" (some s) cs) = .ok (.int n)) ∧
    (∀ cs, parse_plist_value (.node "integer" none cs) = .ok (.int 0)) ∧
    (∀ cs, parse_plist_value (.node "integer" (some "") cs) = .ok (.int 0)) ∧
    (∀ (s : String) (cs : List MarkupNode), s ≠ "" → pyInt s = none →
      parse_plist_value (.node "integer" (some s) cs) = .error "MalformedInteger") := by
  refine ⟨?_, parse_integer_none, parse_integer_empty, ?_⟩
  · intro s n cs h
    have hs : s ≠ "" := by
      intro hc
      subst hc
      rw [(rfl : pyInt "" = none)] at h
      cases h
    rw [parse_integer_some s cs hs, h]
  · intro s cs hs h
    rw [parse_integer_some s cs hs, h]

theorem claim_C3_witness :
    parse_plist_value (.node "integer" (some "42") []) = .ok (.int 42) ∧
    parse_plist_value (.node "integer" (some "abc") []) = .error "MalformedInteger" :=
  ⟨claim_C3.1 "42" 42 [] (by decide),
    claim_C3.2.2.2 "abc" [] (by decide) (by decide)⟩

/-- Claim C4: a dangling trailing `key` child contributes no entry and
raises no error: `dict[key:"A", string:"x", key:"B"]` decodes to the
one-entry record mapping "A" to Text "x". -/
theorem claim_C4 :
    parse_plist_value (.node "dict" none
      [.node "key" (some "A") [], .node "string" (some "x") [],
        .node "key" (some "B") []]) =
      .ok (.dict [(some "A", .str "x")]) := rfl

/-- Claim C5: decode succeeds on every structurally valid tree in which no
`integer`-tagged node carries non-empty unparseable text, and whenever
decode does fail, the whole call aborts with the MalformedInteger error and
nothing else: every result is either a success or that single error. -/
theorem claim_C5 :
    (∀ n : MarkupNode, nodeOk n = true → (parse_plist_value n).isOk = true) ∧
    (∀ (n : MarkupNode) (e : String),
      parse_plist_value n = .error e → e = "MalformedInteger") ∧
    (∀ n : MarkupNode, (parse_plist_value n).isOk = true ∨
      parse_plist_value n = .error "MalformedInteger") := by
  refine ⟨ok_value, err_value, ?_⟩
  intro n
  cases h : parse_plist_value n with
  | ok v => left; rfl
  | error e => right; rw [err_value n e h]

theorem claim_C5_witness :
    (parse_plist_value (.node "dict" none
      [.node "key" (some "A") [], .node "integer" (some "7") [],
        .node "key" (some "B") [], .node "frobnicate" none [],
        .node "key" (some "C") []])).isOk = true :=
  claim_C5.1 _ (by decide)

/-- Claim C6: decoding an `array`-tagged node decodes every child in order:
an empty `array` decodes to the empty list, and when the children decode to
`vs`, the array node decodes to List `vs`, of the same length as the
children, with element i the decode of child i. -/
theorem claim_C6 :
    (∀ (x : Option String), parse_plist_value (.node "array" x []) = .ok (.list [])) ∧
    (∀ (x : Option String) (cs : List MarkupNode) (vs : List PValue),
      parse_plist_list cs = .ok vs →
      parse_plist_value (.node "array" x cs) = .ok (.list vs) ∧
      vs.length = cs.length ∧
      ∀ (i : Nat) (h1 : i < cs.length) (h2 : i < vs.length),
        parse_plist_value (cs.get ⟨i, h1⟩) = .ok (vs.get ⟨i, h2⟩)) := by
  constructor
  · intro x
    rw [parse_array_eq]
    rfl
  · intro x cs vs h
    have hf := parse_plist_list_forall₂ cs vs h
    have hget := List.forall₂_iff_get.mp hf
    refine ⟨?_, hget.1.symm, hget.2⟩
    rw [parse_array_eq, h]
    rfl

theorem claim_C6_witness :
    parse_plist_value (.node "array" none
      [.node "true" none [], .node "string" (some "x") []]) =
      .ok (.list [.bool true, .str "x"]) :=
  (claim_C6.2 none [.node "true" none [], .node "string" (some "x") []]
    [.bool true, .str "x"] rfl).1

/-- Claim C7: the primitive tags decode as: `string` to Text equal to the
raw text (empty when absent), `true` to Boolean true, `false` to Boolean
false, and `date` to the raw text verbatim as Text (empty when absent). -/
theorem claim_C7 :
    (∀ (s : String) (cs : List MarkupNode),
      parse_plist_value (.node "string" (some s) cs) = .ok (.str s)) ∧
    (∀ cs, parse_plist_value (.node "string" none cs) = .ok (.str "")) ∧
    (∀ (x : Option String) (cs : List MarkupNode),
      parse_plist_value (.node "true" x cs) = .ok (.bool true)) ∧
    (∀ (x : Option String) (cs : List MarkupNode),
      parse_plist_value (.node "false" x cs) = .ok (.bool false)) ∧
    (∀ (s : String) (cs : List MarkupNode),
      parse_plist_value (.node "date" (some s) cs) = .ok (.str s)) ∧
    (∀ cs, parse_plist_value (.node "date" none cs) = .ok (.str "")) :=
  ⟨fun _ _ => rfl, fun _ => rfl, fun _ _ => rfl, fun _ _ => rfl,
    fun _ _ => rfl, fun _ => rfl⟩

/-- Claim C8: any node whose tag is none of the seven recognised tags
decodes to the null value, without an error. -/
theorem claim_C8 :
    ∀ (tag : String) (x : Option String) (cs : List MarkupNode),
      tag ∉ ["string", "integer", "true", "false", "date", "dict", "array"] →
      parse_plist_value (.node tag x cs) = .ok .null :=
  parse_unknown_eq

theorem claim_C8_witness :
    parse_plist_value (.node "key" (some "A") []) = .ok .null :=
  claim_C8 "key" (some "A") [] (by decide)

/-- Claim C9: decoding the encoding of any well-formed Record (distinct
keys in every nested record, the invariant of decoder output) under the
faithful inverse encoder reproduces the Record exactly, entry order and
values included. -/
theorem claim_C9 :
    ∀ (entries : List (Option String × PValue)),
      wfValue (.dict entries) = true →
      parse_plist_value (encodeValue (.dict entries)) = .ok (.dict entries) :=
  fun _ h => roundtrip_value _ h

theorem claim_C9_witness :
    parse_plist_value (encodeValue (.dict
      [(some "A", .str "x"), (some "B", .int (-5)),
        (some "C", .list [.bool true, .null])])) =
      .ok (.dict [(some "A", .str "x"), (some "B", .int (-5)),
        (some "C", .list [.bool true, .null])]) :=
  claim_C9 _ (by decide)

/-- Claim C10: a `key` child with absent text followed by a value sibling
still emits an entry, keyed by the absent value: the walk inserts under key
`none`, and a dict of exactly such a pair decodes to the record with the
single `none`-keyed entry. -/
theorem claim_C10 :
    (∀ (acc : List (Option String × PValue)) (v : MarkupNode)
      (rest : List MarkupNode) (pv : PValue),
      parse_plist_value v = .ok pv →
      parse_plist_dict acc (.node "key" none [] :: v :: rest) =
        parse_plist_dict (dictInsert acc none pv) rest) ∧
    parse_plist_value (.node "dict" none
      [.node "key" none [], .node "string" (some "x") []]) =
      .ok (.dict [(none, .str "x")]) := by
  constructor
  · intro acc v rest pv h
    rw [dict_walk_key acc (.node "key" none []) v rest rfl, h]
    rfl
  · rfl

theorem claim_C10_witness :
    parse_plist_dict [] [.node "key" none [], .node "true" none []] =
      parse_plist_dict (dictInsert [] none (.bool true)) [] :=
  claim_C10.1 [] (.node "true" none []) [] (.bool true) rfl
